import Mathlib

/-!
Verification of the NTM memory-interface core of `mi-prometheus`
(`src/models/ntm/interface.py`, `src/models/encoder_solver/mae_cell.py`).

The shallow embedding works per batch element (the Python code vectorizes the
very same arithmetic over a leading batch axis): attention vectors are
`Fin A → ℝ`, memory is `Fin A → Fin C → ℝ`, float arithmetic is modelled over
the reals, and PyTorch's `F.normalize(v, p, dim, eps)` is modelled by its
documented semantics `v / max (norm_p v) eps`.
-/

namespace NTMSpec

/-! ## Integer and list level: parameter layout, construction checks,
    circular-convolution index table (all computable). -/

/-- `circular_index` from `Interface.circular_convolution`
(interface.py lines 280-287): single-wrap correction of an index into
`[0, num_addr)`. -/
def circular_index (idx : ℤ) (num_addr : ℕ) : ℤ :=
if idx < 0 then (num_addr : ℤ) + idx
else if (num_addr : ℤ) ≤ idx then idx - (num_addr : ℤ)
else idx

/-- Python `range(a, b)` over integers. -/
def python_range (a b : ℤ) : List ℤ :=
(List.range (b - a).toNat).map (fun (j : ℕ) => a + (j : ℤ))

/-- The extended index list built in `Interface.circular_convolution`
(interface.py line 296):
`[circular_index(shift, num_addr) for shift in range(-shift_size//2+1, num_addr+shift_size//2)]`.
Python `//` is floor division, which on `ℤ` with a positive divisor is `/`
(euclidean division), so `-shift_size//2+1 = -(shift_size : ℤ)/2 + 1`. -/
def ext_indices (shift_size num_addr : ℕ) : List ℤ :=
(python_range (-(shift_size : ℤ) / 2 + 1) ((num_addr : ℤ) + (shift_size : ℤ) / 2)).map
  (fun shift => circular_index shift num_addr)

/-- `Interface.calculate_param_locations` (interface.py lines 164-176):
cumulative sums of the declared widths with a leading `0`
(`np.cumsum(np.insert(lengths, 0, 0))`). -/
def calculate_param_locations (param_sizes : List ℕ) : List ℕ :=
List.scanl (· + ·) 0 param_sizes

/-- Python slice `params[..., a:b]` along the last dimension (one slice of
`Interface.split_params`). -/
def slice_last {α : Type} (params : List α) (a b : ℕ) : List α :=
(params.drop a).take (b - a)

/-- `Interface.split_params` (interface.py lines 178-182):
`[params[..., locations[i]:locations[i+1]] for i in range(len(locations)-1)]`. -/
def split_params {α : Type} (params : List α) (locations : List ℕ) : List (List α) :=
(List.range (locations.length - 1)).map
  (fun i => slice_last params (locations.getD i 0) (locations.getD (i + 1) 0))

/-- The configuration values read by `Interface.__init__`
(interface.py lines 34-43); Python ints are modelled as `ℤ` where a negative
value is expressible in the config, and `ℕ` for the content width. -/
structure InterfaceConfig where
  hidden_state_size : ℤ
  num_content_bits : ℕ
  shift_size : ℤ
  num_read_heads : ℤ

/-- The parameter layout computed by a successful `Interface.__init__`. -/
structure InterfaceLayout where
  read_param_locations : List ℕ
  write_param_locations : List ℕ

/-- Declared read-head parameter widths, in dict order
(interface.py lines 51-52): query_vector, beta, gate, shift, gamma. -/
def read_sizes (C S : ℕ) : List ℕ := [C, 1, 1, S, 1]

/-- Declared write-head parameter widths, in dict order
(interface.py lines 66-68): query_vector, beta, gate, shift, gamma,
erase_vector, add_vector. -/
def write_sizes (C S : ℕ) : List ℕ := [C, 1, 1, S, 1, C, C]

/-- `Interface.__init__` (interface.py lines 25-72): the four `assert`
checks in source order; a failed assert aborts construction (`none`). -/
def interface_construct (cfg : InterfaceConfig) : Option InterfaceLayout :=
if cfg.shift_size % 2 = 0 then none
else if ¬ (0 < cfg.shift_size) then none
else if ¬ (1 ≤ cfg.num_read_heads) then none
else
  let C := cfg.num_content_bits
  let S := cfg.shift_size.toNat
  let num_read_params := C + 1 + 1 + 1 + S
  let read_locs := calculate_param_locations (read_sizes C S)
  if ¬ (num_read_params = read_locs.getLastD 0) then none
  else
    let num_write_params := 3 * C + 1 + 1 + 1 + S
    let write_locs := calculate_param_locations (write_sizes C S)
    if ¬ (num_write_params = write_locs.getLastD 0) then none
    else some ⟨read_locs, write_locs⟩

/-! ## Checkpoint model for `MAECell.save` (mae_cell.py lines 87-106).

PyTorch's `nn.Module.__setattr__` registers an attribute into the module
tree (and hence into `state_dict()`) only when its value is itself an
`nn.Module` (e.g. `nn.Linear`) or an `nn.Parameter`/`nn.ModuleList`; a plain
Python list is stored as an ordinary attribute and its elements are
invisible to `state_dict()`. `Interface.__init__` stores the read-head
layers in a plain Python list (`self.hidden2read_list = []`, interface.py
lines 56-58) and the write-head layer as a directly assigned `nn.Linear`
(`self.hidden2write_params = ...`, line 72). -/

/-- Names of the learned parameters of the interface's linear layers. -/
inductive ParamKey where
  | read_weight (head : ℕ)
  | read_bias (head : ℕ)
  | write_weight
  | write_bias
deriving DecidableEq

/-- One attribute assigned in `Interface.__init__`: either a directly
assigned `nn.Module` carrying parameters, or a plain Python list of modules. -/
inductive PyAttr where
  | module_attr (param_keys : List ParamKey)
  | plain_list_attr (elems : List (List ParamKey))

/-- Contribution of one attribute to `state_dict()`: a registered module
contributes its parameters; a plain Python list contributes nothing. -/
def PyAttr.state_dict_contribution : PyAttr → List ParamKey
  | .module_attr ks => ks
  | .plain_list_attr _ => []

/-- The two layer-holding attributes assigned by `Interface.__init__`
(interface.py lines 56-72). -/
def interface_attrs (num_read_heads : ℕ) : List PyAttr :=
[PyAttr.plain_list_attr
    ((List.range num_read_heads).map
      (fun i => [ParamKey.read_weight i, ParamKey.read_bias i])),
  PyAttr.module_attr [ParamKey.write_weight, ParamKey.write_bias]]

/-- `self.interface.state_dict()` as saved by `MAECell.save`. -/
def interface_state_dict (num_read_heads : ℕ) : List ParamKey :=
((interface_attrs num_read_heads).map PyAttr.state_dict_contribution).flatten

/-- Modelled from the spec: "persisted state = controller parameters +
interface parameters (the learned linear-layer weights for all heads)"
(spec section 6, checkpoint boundary) - the interface parameter set the
specification expects the checkpoint to contain: one weight/bias pair per
read head plus the write head's pair. -/
def spec_interface_param_keys (num_read_heads : ℕ) : List ParamKey :=
((List.range num_read_heads).map
    (fun i => [ParamKey.read_weight i, ParamKey.read_bias i])).flatten ++
  [ParamKey.write_weight, ParamKey.write_bias]

/-- The dictionary persisted by `MAECell.save` (mae_cell.py lines 96-100):
`{'episode': ..., 'ctrl_dict': controller.state_dict(), 'interface_dict': interface.state_dict()}` -
no per-sequence runtime state tuple is stored. -/
structure MAECheckpoint where
  episode : ℕ
  ctrl_dict : List ParamKey
  interface_dict : List ParamKey

/-- `MAECell.save` (mae_cell.py lines 87-106), keyed by the interface's
number of read heads and the controller's own parameter keys. -/
def mae_cell_save (num_read_heads episode : ℕ) (ctrl_keys : List ParamKey) :
    MAECheckpoint :=
⟨episode, ctrl_keys, interface_state_dict num_read_heads⟩

/-! ## Real-valued level: the addressing pipeline and the memory update,
    per batch element. -/

noncomputable section

/-- PyTorch's default stability epsilon in `torch.nn.functional.normalize`. -/
def EPS : ℝ := 1e-12

/-- `torch.sigmoid`. -/
def sigmoid (x : ℝ) : ℝ := 1 / (1 + Real.exp (-x))

/-- `F.softplus`. -/
def softplus (x : ℝ) : ℝ := Real.log (1 + Real.exp x)

/-- `F.softmax` along one axis. -/
def softmax {n : ℕ} (v : Fin n → ℝ) : Fin n → ℝ :=
fun i => Real.exp (v i) / ∑ j, Real.exp (v j)

/-- Euclidean norm of one slice along the normalized axis. -/
def l2norm {n : ℕ} (v : Fin n → ℝ) : ℝ := Real.sqrt (∑ j, v j ^ 2)

/-- Sum-of-absolute-values norm of one slice along the normalized axis. -/
def l1norm {n : ℕ} (v : Fin n → ℝ) : ℝ := ∑ j, |v j|

/-- `F.normalize(v, p=2, dim)` on one slice: `v / max(‖v‖₂, eps)`. -/
def normalize_l2 {n : ℕ} (v : Fin n → ℝ) : Fin n → ℝ :=
fun i => v i / max (l2norm v) EPS

/-- `F.normalize(v, p=1, dim)` on one slice: `v / max(‖v‖₁, eps)`. -/
def normalize_l1 {n : ℕ} (v : Fin n → ℝ) : Fin n → ℝ :=
fun i => v i / max (l1norm v) EPS

/-- `torch.matmul` on one batch element. -/
def matmul {m n p : ℕ} (M : Fin m → Fin n → ℝ) (N : Fin n → Fin p → ℝ) :
    Fin m → Fin p → ℝ :=
fun i j => ∑ k, M i k * N k j

/-- `Interface.content_based_addressing` (interface.py lines 225-252):
L2-normalize query and memory rows along the content axis, cosine
similarity, multiply by the strength, softmax along the address axis.
The query and strength arrive already transformed (`update_attention`
applies sigmoid / softplus+1 before calling). -/
def content_based_addressing {A C : ℕ} (query : Fin C → ℝ) (beta : ℝ)
    (prev_memory : Fin A → Fin C → ℝ) : Fin A → ℝ :=
  let norm_query := normalize_l2 query
  let norm_memory := fun a => normalize_l2 (prev_memory a)
  let similarity := fun a => ∑ j, norm_memory a j * norm_query j
  let strengthened := fun a => similarity a * beta
  softmax strengthened

/-- The gating step of `Interface.update_attention` (interface.py line 216):
`gate * content + (1 - gate) * prev`. -/
def gating {A : ℕ} (gate : ℝ) (content_attention prev_attention : Fin A → ℝ) :
    Fin A → ℝ :=
fun a => gate * content_attention a + (1 - gate) * prev_attention a

/-- The extended attention vector of `Interface.circular_convolution`
(interface.py line 300): `torch.index_select(attention, dim=1, ext_indices)`.
An index outside `[0, A)` makes the real `index_select` raise; the model
returns a junk `0` there (claim C10 characterizes exactly when this
cannot happen). -/
def ext_attention {A : ℕ} (S : ℕ) (attention : Fin A → ℝ) (j : ℕ) : ℝ :=
if h : 0 ≤ (ext_indices S A).getD j 0 ∧ ((ext_indices S A).getD j 0).toNat < A
then attention ⟨((ext_indices S A).getD j 0).toNat, h.2⟩ else 0

/-- `Interface.circular_convolution` (interface.py lines 272-321):
`F.conv1d` of the extended attention with the per-batch kernel, i.e.
cross-correlation `out[a] = Σ_s ext[a+s] * kernel[s]`. -/
def circular_convolution {A S : ℕ} (attention : Fin A → ℝ)
    (shift : Fin S → ℝ) : Fin A → ℝ :=
fun a => ∑ s : Fin S, ext_attention S attention ((a : ℕ) + (s : ℕ)) * shift s

/-- `Interface.sharpening` (interface.py lines 323-343): raise to the
power `gamma` elementwise, then `F.normalize(.., p=1, dim=1)` along the
address axis. -/
def sharpening {A : ℕ} (attention : Fin A → ℝ) (gamma : ℝ) : Fin A → ℝ :=
normalize_l1 (fun a => attention a ^ gamma)

/-- `Interface.location_based_addressing` (interface.py lines 254-270):
circular convolution, then sharpening. -/
def location_based_addressing {A S : ℕ} (attention : Fin A → ℝ)
    (shift : Fin S → ℝ) (gamma : ℝ) : Fin A → ℝ :=
sharpening (circular_convolution attention shift) gamma

/-- `Interface.update_attention` (interface.py lines 184-223): transform the
raw head parameters (sigmoid query, softplus+1 strength, sigmoid gate,
softmax shift kernel, softplus+1 sharpening factor), then content-based
addressing, gating against the previous attention, and location-based
addressing. -/
def update_attention {A C S : ℕ} (raw_query : Fin C → ℝ)
    (raw_beta raw_gate : ℝ) (raw_shift : Fin S → ℝ) (raw_gamma : ℝ)
    (prev_memory : Fin A → Fin C → ℝ) (prev_attention : Fin A → ℝ) :
    Fin A → ℝ :=
  let query := fun j => sigmoid (raw_query j)
  let beta := softplus raw_beta + 1
  let gate := sigmoid raw_gate
  let shift := softmax raw_shift
  let gamma := softplus raw_gamma + 1
  let content_attention := content_based_addressing query beta prev_memory
  let attention_after_gating := gating gate content_attention prev_attention
  location_based_addressing attention_after_gating shift gamma

/-- The attention right after the circular convolution inside
`update_attention` (the input of the final sharpening step). -/
def shifted_attention {A C S : ℕ} (raw_query : Fin C → ℝ)
    (raw_beta raw_gate : ℝ) (raw_shift : Fin S → ℝ)
    (prev_memory : Fin A → Fin C → ℝ) (prev_attention : Fin A → ℝ) :
    Fin A → ℝ :=
circular_convolution
  (gating (sigmoid raw_gate)
    (content_based_addressing (fun j => sigmoid (raw_query j))
      (softplus raw_beta + 1) prev_memory)
    prev_attention)
  (softmax raw_shift)

/-- The memory write of `Interface.forward` (interface.py lines 150-156):
`preserve = 1 - matmul(write_attention, erase)`;
`add_content = matmul(write_attention, add)`;
`memory = prev_memory * preserve + add_content`. -/
def memory_update {A C : ℕ} (prev_memory : Fin A → Fin C → ℝ)
    (write_attention : Fin A → ℝ) (erase_vector add_vector : Fin C → ℝ) :
    Fin A → Fin C → ℝ :=
  let preserve_content := fun i j =>
    1 - matmul (fun i (_ : Fin 1) => write_attention i)
      (fun (_ : Fin 1) j => erase_vector j) i j
  let add_content := matmul (fun i (_ : Fin 1) => write_attention i)
    (fun (_ : Fin 1) j => add_vector j)
  fun i j => prev_memory i j * preserve_content i j + add_content i j

/-- A learned `torch.nn.Linear` layer. -/
structure LinearLayer (inDim outDim : ℕ) where
  weight : Fin outDim → Fin inDim → ℝ
  bias : Fin outDim → ℝ

/-- Application of an `nn.Linear` layer. -/
def LinearLayer.apply {inDim outDim : ℕ} (l : LinearLayer inDim outDim)
    (x : Fin inDim → ℝ) : Fin outDim → ℝ :=
fun p => (∑ j, l.weight p j * x j) + l.bias p

/-! Slices of the flat head-parameter vectors, after `split_params` with the
read layout `[C, 1, 1, S, 1]` (total `C+1+1+S+1`) and the write layout
`[C, 1, 1, S, 1, C, C]` (total `C+1+1+S+1+C+C`). -/

/-- Read slice `query_vector`: positions `[0, C)`. -/
def read_query {C S : ℕ} (p : Fin (C + 1 + 1 + S + 1) → ℝ) : Fin C → ℝ :=
fun j => p ⟨j, by omega⟩

/-- Read slice `beta`: position `C`. -/
def read_beta {C S : ℕ} (p : Fin (C + 1 + 1 + S + 1) → ℝ) : ℝ :=
p ⟨C, by omega⟩

/-- Read slice `gate`: position `C+1`. -/
def read_gate {C S : ℕ} (p : Fin (C + 1 + 1 + S + 1) → ℝ) : ℝ :=
p ⟨C + 1, by omega⟩

/-- Read slice `shift`: positions `[C+2, C+2+S)`. -/
def read_shift {C S : ℕ} (p : Fin (C + 1 + 1 + S + 1) → ℝ) : Fin S → ℝ :=
fun s => p ⟨C + 1 + 1 + s, by omega⟩

/-- Read slice `gamma`: position `C+2+S`. -/
def read_gamma {C S : ℕ} (p : Fin (C + 1 + 1 + S + 1) → ℝ) : ℝ :=
p ⟨C + 1 + 1 + S, by omega⟩

/-- Write slice `query_vector`. -/
def write_query {C S : ℕ} (p : Fin (C + 1 + 1 + S + 1 + C + C) → ℝ) :
    Fin C → ℝ :=
fun j => p ⟨j, by omega⟩

/-- Write slice `beta`. -/
def write_beta {C S : ℕ} (p : Fin (C + 1 + 1 + S + 1 + C + C) → ℝ) : ℝ :=
p ⟨C, by omega⟩

/-- Write slice `gate`. -/
def write_gate {C S : ℕ} (p : Fin (C + 1 + 1 + S + 1 + C + C) → ℝ) : ℝ :=
p ⟨C + 1, by omega⟩

/-- Write slice `shift`. -/
def write_shift {C S : ℕ} (p : Fin (C + 1 + 1 + S + 1 + C + C) → ℝ) :
    Fin S → ℝ :=
fun s => p ⟨C + 1 + 1 + s, by omega⟩

/-- Write slice `gamma`. -/
def write_gamma {C S : ℕ} (p : Fin (C + 1 + 1 + S + 1 + C + C) → ℝ) : ℝ :=
p ⟨C + 1 + 1 + S, by omega⟩

/-- Write slice `erase_vector`: positions `[C+3+S, 2C+3+S)`. -/
def write_erase {C S : ℕ} (p : Fin (C + 1 + 1 + S + 1 + C + C) → ℝ) :
    Fin C → ℝ :=
fun j => p ⟨C + 1 + 1 + S + 1 + j, by omega⟩

/-- Write slice `add_vector`: positions `[2C+3+S, 3C+3+S)`. -/
def write_add {C S : ℕ} (p : Fin (C + 1 + 1 + S + 1 + C + C) → ℝ) :
    Fin C → ℝ :=
fun j => p ⟨C + 1 + 1 + S + 1 + C + j, by omega⟩

/-- `InterfaceStateTuple` (interface.py line 15): the read attentions, one
per read head, and the write attention. -/
structure InterfaceState (R A : ℕ) where
  read_weights : Fin R → Fin A → ℝ
  write_weights : Fin A → ℝ

/-- `Interface.forward` (interface.py lines 95-162), per batch element.
For every read head: generate raw parameters with its linear layer, split,
update its attention against `prev_memory`, and read
`read_vector = attentionᵀ · prev_memory` from the *previous* memory.
Then the write head: generate and split raw parameters, sigmoid the erase
and add vectors, update the write attention, and write into the memory.
Returns (read vectors, new memory, new state tuple). -/
def interface_forward {R A C S H : ℕ}
    (hidden2read_list : Fin R → LinearLayer H (C + 1 + 1 + S + 1))
    (hidden2write_params : LinearLayer H (C + 1 + 1 + S + 1 + C + C))
    (ctrl_hidden_state : Fin H → ℝ)
    (prev_memory : Fin A → Fin C → ℝ)
    (prev_state : InterfaceState R A) :
    (Fin R → Fin C → ℝ) × (Fin A → Fin C → ℝ) × InterfaceState R A :=
  let read_attentions := fun i =>
    let params := (hidden2read_list i).apply ctrl_hidden_state
    update_attention (read_query params) (read_beta params)
      (read_gate params) (read_shift params) (read_gamma params)
      prev_memory (prev_state.read_weights i)
  let read_vectors := fun i (j : Fin C) =>
    ∑ a, read_attentions i a * prev_memory a j
  let wparams := hidden2write_params.apply ctrl_hidden_state
  let erase_vector := fun j => sigmoid (write_erase wparams j)
  let add_vector := fun j => sigmoid (write_add wparams j)
  let write_attention := update_attention (write_query wparams)
    (write_beta wparams) (write_gate wparams) (write_shift wparams)
    (write_gamma wparams) prev_memory prev_state.write_weights
  let new_memory := memory_update prev_memory write_attention
    erase_vector add_vector
  (read_vectors, new_memory, ⟨read_attentions, write_attention⟩)

/-- `MAECellStateTuple` (mae_cell.py line 22). -/
structure MAECellState (CtrlState IfaceState Memory : Type) where
  ctrl_state : CtrlState
  interface_state : IfaceState
  memory_state : Memory

/-- `MAECell.forward` (mae_cell.py lines 146-171): run the controller on
the input and the previous controller state, run the interface (an opaque
collaborator: `mae_interface.py` is outside the embedded sources, so it is
kept as an arbitrary function) on the controller hidden state, previous
memory and previous interface state, and produce the output logits from
the controller hidden state alone via `hidden2output`. -/
def mae_cell_forward {I H O A C : ℕ} {CtrlState IfaceState : Type}
    (controller : (Fin I → ℝ) → CtrlState → (Fin H → ℝ) × CtrlState)
    (interface : (Fin H → ℝ) → (Fin A → Fin C → ℝ) → IfaceState →
      (Fin A → Fin C → ℝ) × IfaceState)
    (hidden2output : LinearLayer H O)
    (inputs : Fin I → ℝ)
    (prev_cell_state : MAECellState CtrlState IfaceState (Fin A → Fin C → ℝ)) :
    (Fin O → ℝ) × MAECellState CtrlState IfaceState (Fin A → Fin C → ℝ) :=
  let ctrl := controller inputs prev_cell_state.ctrl_state
  let iface := interface ctrl.1 prev_cell_state.memory_state
    prev_cell_state.interface_state
  let logits := hidden2output.apply ctrl.1
  (logits, ⟨ctrl.2, iface.2, iface.1⟩)

/-- A one-hot vector (used to state the shift and read/write scenarios). -/
def one_hot {n : ℕ} (i : Fin n) : Fin n → ℝ := fun j => if j = i then 1 else 0

/-- Reduce an integer modulo the number of addresses, as an address. -/
def wrap_idx {A : ℕ} [NeZero A] (idx : ℤ) : Fin A :=
⟨(idx % (A : ℤ)).toNat, by
  have hA : 0 < (A : ℤ) := by
    exact_mod_cast Nat.pos_of_ne_zero (NeZero.ne A)
  have h1 := Int.emod_nonneg idx (ne_of_gt hA)
  have h2 := Int.emod_lt_of_pos idx hA
  omega⟩

end

/-! ## Theorems -/

theorem python_range_mem {a b x : ℤ} :
    x ∈ python_range a b ↔ a ≤ x ∧ x < b := by
  unfold python_range
  rw [List.mem_map]
  constructor
  · rintro ⟨j, hj, rfl⟩
    rw [List.mem_range] at hj
    omega
  · rintro ⟨h1, h2⟩
    exact ⟨(x - a).toNat, List.mem_range.mpr (by omega), by omega⟩

/-- C10: the extended index list built inside `circular_convolution` stays
inside `[0, A)` exactly when `S / 2 ≤ A` (equivalently `S ≤ 2A + 1` for odd
`S`); when `S / 2 > A` the single-wrap correction of `circular_index`
produces an out-of-range index and the subsequent `index_select` fails. -/
theorem ext_indices_in_bounds_iff {S A : ℕ} (hS : S % 2 = 1) (hA : 0 < A) :
    (∀ idx ∈ ext_indices S A, 0 ≤ idx ∧ idx < (A : ℤ)) ↔ S / 2 ≤ A := by
  constructor
  · intro h
    by_contra hc
    push_neg at hc
    have hmem : circular_index (-((S / 2 : ℕ) : ℤ)) A ∈ ext_indices S A := by
      apply List.mem_map_of_mem
      rw [python_range_mem]
      omega
    have hbound := h _ hmem
    have hlt : -((S / 2 : ℕ) : ℤ) < 0 := by omega
    rw [circular_index, if_pos hlt] at hbound
    omega
  · intro hc idx hidx
    obtain ⟨shift, hshift, rfl⟩ := List.mem_map.mp hidx
    rw [python_range_mem] at hshift
    rw [circular_index]
    split_ifs <;> omega

theorem ext_indices_in_bounds_iff_witness :
    ((3 % 2 = 1 ∧ 0 < 4) ∧
      ((∀ idx ∈ ext_indices 3 4, 0 ≤ idx ∧ idx < (4 : ℤ)) ↔ 3 / 2 ≤ 4)) :=
⟨⟨by decide, by decide⟩, @ext_indices_in_bounds_iff 3 4 (by decide) (by decide)⟩

/-- C6: `Interface.__init__` succeeds iff the shift size is odd, positive,
at least one read head is requested, and the declared per-head parameter
widths sum to the expected parameter counts; moreover the two width checks
hold for every configuration (both sides are the same arithmetic), so the
only reachable construction failures are the first three. -/
theorem interface_construct_iff (cfg : InterfaceConfig) :
    ((interface_construct cfg).isSome ↔
      (cfg.shift_size % 2 ≠ 0 ∧ 0 < cfg.shift_size ∧
        1 ≤ cfg.num_read_heads ∧
        cfg.num_content_bits + 1 + 1 + 1 + cfg.shift_size.toNat =
          (calculate_param_locations
            (read_sizes cfg.num_content_bits cfg.shift_size.toNat)).getLastD 0 ∧
        3 * cfg.num_content_bits + 1 + 1 + 1 + cfg.shift_size.toNat =
          (calculate_param_locations
            (write_sizes cfg.num_content_bits cfg.shift_size.toNat)).getLastD 0)) ∧
    cfg.num_content_bits + 1 + 1 + 1 + cfg.shift_size.toNat =
      (calculate_param_locations
        (read_sizes cfg.num_content_bits cfg.shift_size.toNat)).getLastD 0 ∧
    3 * cfg.num_content_bits + 1 + 1 + 1 + cfg.shift_size.toNat =
      (calculate_param_locations
        (write_sizes cfg.num_content_bits cfg.shift_size.toNat)).getLastD 0 := by
  have hr : (calculate_param_locations
      (read_sizes cfg.num_content_bits cfg.shift_size.toNat)).getLastD 0 =
      cfg.num_content_bits + 1 + 1 + 1 + cfg.shift_size.toNat := by
    simp [calculate_param_locations, read_sizes, List.scanl]
    omega
  have hw : (calculate_param_locations
      (write_sizes cfg.num_content_bits cfg.shift_size.toNat)).getLastD 0 =
      3 * cfg.num_content_bits + 1 + 1 + 1 + cfg.shift_size.toNat := by
    simp [calculate_param_locations, write_sizes, List.scanl]
    omega
  refine ⟨?_, hr.symm, hw.symm⟩
  rw [interface_construct]
  split_ifs <;> simp_all

/-- C8 (code bug): the checkpoint written by `MAECell.save` misses the
read heads' linear-layer parameters: `hidden2read_list` is a plain Python
list, so its `nn.Linear` elements are never registered and
`interface.state_dict()` contains only the write head's parameters, while
the spec's persisted-state contract expects every head's weights. -/
theorem mae_cell_save_omits_read_head_params :
    (mae_cell_save 1 0 []).interface_dict =
      [ParamKey.write_weight, ParamKey.write_bias] ∧
    ParamKey.read_weight 0 ∉ (mae_cell_save 1 0 []).interface_dict ∧
    ParamKey.read_weight 0 ∈ spec_interface_param_keys 1 := by
  decide

theorem scanl_add_getLastD (sizes : List ℕ) (n d : ℕ) :
    (List.scanl (· + ·) n sizes).getLastD d = n + sizes.sum := by
  induction sizes generalizing n d with
  | nil => simp [List.scanl]
  | cons w ws ih =>
    rw [List.scanl_cons, List.singleton_append, List.getLastD_cons, ih]
    simp
    omega

theorem split_params_cons_cons {α : Type} (p : List α) (a b : ℕ)
    (l : List ℕ) :
    split_params p (a :: b :: l) =
      slice_last p a b :: split_params p (b :: l) := by
  rw [split_params, split_params]
  have h1 : (a :: b :: l).length - 1 = l.length + 1 := by simp
  have h2 : (b :: l).length - 1 = l.length := by simp
  rw [h1, h2, List.range_succ_eq_map]
  simp [List.map_map, Function.comp_def]

theorem split_params_join {α : Type} (sizes : List ℕ) (n : ℕ)
    (params : List α) (h : params.length = n + sizes.sum) :
    (split_params params (List.scanl (· + ·) n sizes)).flatten =
      params.drop n := by
  induction sizes generalizing n with
  | nil =>
    simp only [List.sum_nil] at h
    rw [List.scanl_nil, split_params]
    simp only [List.length_cons, List.length_nil, Nat.sub_self,
      List.range_zero, List.map_nil, List.flatten_nil]
    have hle : params.length ≤ n := by omega
    exact (List.drop_eq_nil_of_le hle).symm
  | cons w ws ih =>
    obtain ⟨t, ht⟩ : ∃ t, List.scanl (· + ·) (n + w) ws = (n + w) :: t := by
      cases ws <;> simp [List.scanl]
    rw [List.scanl_cons, List.singleton_append, ht, split_params_cons_cons,
      ← ht, List.flatten_cons]
    have hsum : params.length = (n + w) + ws.sum := by
      simp only [List.sum_cons] at h
      omega
    rw [ih (n + w) hsum]
    have hw : n + w - n = w := by omega
    rw [slice_last, hw]
    have hdd : params.drop (n + w) = (params.drop n).drop w := by
      rw [List.drop_drop]
    rw [hdd, List.take_append_drop]

theorem split_params_lengths {α : Type} (sizes : List ℕ) (n : ℕ)
    (params : List α) (h : params.length = n + sizes.sum) :
    ∀ i < sizes.length,
      ((split_params params (List.scanl (· + ·) n sizes)).getD i
        []).length = sizes.getD i 0 := by
  induction sizes generalizing n with
  | nil =>
    intro i hi
    simp at hi
  | cons w ws ih =>
    intro i hi
    obtain ⟨t, ht⟩ : ∃ t, List.scanl (· + ·) (n + w) ws = (n + w) :: t := by
      cases ws <;> simp [List.scanl]
    rw [List.scanl_cons, List.singleton_append, ht, split_params_cons_cons,
      ← ht]
    have hsum : params.length = (n + w) + ws.sum := by
      simp only [List.sum_cons] at h
      omega
    cases i with
    | zero =>
      simp [slice_last, List.length_take, List.length_drop]
      omega
    | succ i =>
      simp only [List.getD_cons_succ]
      exact ih (n + w) hsum i (by simpa using hi)

/-- C9: for a tensor whose last dimension equals the final cumulative
boundary `locations[-1]`, the slices of `split_params` concatenate back to
the original tensor in declared order, and the `i`-th slice has the `i`-th
declared width; this holds pointwise in any leading dimensions (the index
type `β` stands for any stack of leading axes, since the slicing acts on
the last axis only). -/
theorem split_params_reconstruct {α β : Type} (sizes : List ℕ)
    (g : β → List α)
    (h : ∀ bb, (g bb).length = (calculate_param_locations sizes).getLastD 0) :
    ∀ bb,
      (split_params (g bb) (calculate_param_locations sizes)).flatten =
        g bb ∧
      ∀ i < sizes.length,
        ((split_params (g bb)
          (calculate_param_locations sizes)).getD i []).length =
          sizes.getD i 0 := by
  intro bb
  have hlen : (g bb).length = 0 + sizes.sum := by
    rw [h bb, calculate_param_locations, scanl_add_getLastD]
  refine ⟨?_, split_params_lengths sizes 0 (g bb) hlen⟩
  have := split_params_join sizes 0 (g bb) hlen
  simpa [calculate_param_locations] using this

theorem split_params_reconstruct_witness :
    (∀ _ : Unit, ([10, 20, 30] : List ℕ).length =
        (calculate_param_locations [2, 1]).getLastD 0) ∧
    (∀ _ : Unit,
      (split_params ([10, 20, 30] : List ℕ)
          (calculate_param_locations [2, 1])).flatten = [10, 20, 30] ∧
      ∀ i < ([2, 1] : List ℕ).length,
        ((split_params ([10, 20, 30] : List ℕ)
            (calculate_param_locations [2, 1])).getD i []).length =
          ([2, 1] : List ℕ).getD i 0) :=
by
  have hh : ([10, 20, 30] : List ℕ).length =
      (calculate_param_locations [2, 1]).getLastD 0 := by decide
  exact ⟨fun _ => hh,
    @split_params_reconstruct ℕ Unit [2, 1] (fun _ => [10, 20, 30])
      (fun _ => hh)⟩

/-! ### Basic facts about the transforms -/

theorem EPS_pos : 0 < EPS := by norm_num [EPS]

theorem softmax_nonneg {n : ℕ} (v : Fin n → ℝ) (i : Fin n) :
    0 ≤ softmax v i :=
div_nonneg (Real.exp_pos _).le
  (Finset.sum_nonneg fun j _ => (Real.exp_pos _).le)

theorem softmax_pos {n : ℕ} (v : Fin n → ℝ) (i : Fin n) :
    0 < softmax v i :=
div_pos (Real.exp_pos _)
  (Finset.sum_pos (fun j _ => Real.exp_pos _) ⟨i, Finset.mem_univ i⟩)

theorem softmax_sum_one {n : ℕ} [NeZero n] (v : Fin n → ℝ) :
    ∑ i, softmax v i = 1 := by
  have hpos : 0 < ∑ j, Real.exp (v j) :=
    Finset.sum_pos (fun j _ => Real.exp_pos _) Finset.univ_nonempty
  unfold softmax
  rw [← Finset.sum_div]
  exact div_self hpos.ne'

theorem sigmoid_pos (x : ℝ) : 0 < sigmoid x :=
div_pos one_pos (by positivity)

theorem sigmoid_lt_one (x : ℝ) : sigmoid x < 1 := by
  rw [sigmoid, div_lt_one (by positivity)]
  have := Real.exp_pos (-x)
  linarith

theorem content_based_addressing_eq {A C : ℕ} (q : Fin C → ℝ) (beta : ℝ)
    (M : Fin A → Fin C → ℝ) :
    content_based_addressing q beta M =
      softmax (fun a =>
        (∑ j, normalize_l2 (M a) j * normalize_l2 q j) * beta) := rfl

/-- C7: for any two previous cell states that agree on the controller-state
component, `MAECell.forward` returns identical output logits, whatever the
interface does: the logits are a linear projection of the controller hidden
vector alone and do not depend on the previous memory, the interface
attention state, or any read vectors. -/
theorem mae_cell_forward_logits_independent {I H O A C : ℕ}
    {CtrlState IfaceState : Type}
    (controller : (Fin I → ℝ) → CtrlState → (Fin H → ℝ) × CtrlState)
    (interface : (Fin H → ℝ) → (Fin A → Fin C → ℝ) → IfaceState →
      (Fin A → Fin C → ℝ) × IfaceState)
    (hidden2output : LinearLayer H O)
    (inputs : Fin I → ℝ)
    (s1 s2 : MAECellState CtrlState IfaceState (Fin A → Fin C → ℝ))
    (hctrl : s1.ctrl_state = s2.ctrl_state) :
    (mae_cell_forward controller interface hidden2output inputs s1).1 =
      (mae_cell_forward controller interface hidden2output inputs s2).1 := by
  unfold mae_cell_forward
  rw [hctrl]

theorem mae_cell_forward_logits_independent_witness :
    ((⟨(), (), fun _ _ => 0⟩ :
        MAECellState Unit Unit (Fin 1 → Fin 1 → ℝ)).ctrl_state =
      (⟨(), (), fun _ _ => 1⟩ :
        MAECellState Unit Unit (Fin 1 → Fin 1 → ℝ)).ctrl_state) ∧
    (mae_cell_forward (fun (_ : Fin 1 → ℝ) (_ : Unit) =>
        (fun (_ : Fin 1) => (0 : ℝ), ()))
      (fun (_ : Fin 1 → ℝ) (m : Fin 1 → Fin 1 → ℝ) (s : Unit) => (m, s))
      (⟨fun _ _ => 0, fun _ => 0⟩ : LinearLayer 1 1)
      (fun _ => 0)
      (⟨(), (), fun _ _ => 0⟩ :
        MAECellState Unit Unit (Fin 1 → Fin 1 → ℝ))).1 =
    (mae_cell_forward (fun (_ : Fin 1 → ℝ) (_ : Unit) =>
        (fun (_ : Fin 1) => (0 : ℝ), ()))
      (fun (_ : Fin 1 → ℝ) (m : Fin 1 → Fin 1 → ℝ) (s : Unit) => (m, s))
      (⟨fun _ _ => 0, fun _ => 0⟩ : LinearLayer 1 1)
      (fun _ => 0)
      (⟨(), (), fun _ _ => 1⟩ :
        MAECellState Unit Unit (Fin 1 → Fin 1 → ℝ))).1 :=
⟨rfl,
  mae_cell_forward_logits_independent
    (fun (_ : Fin 1 → ℝ) (_ : Unit) => (fun (_ : Fin 1) => (0 : ℝ), ()))
    (fun (_ : Fin 1 → ℝ) (m : Fin 1 → Fin 1 → ℝ) (s : Unit) => (m, s))
    (⟨fun _ _ => 0, fun _ => 0⟩ : LinearLayer 1 1)
    (fun _ => 0)
    (⟨(), (), fun _ _ => 0⟩ : MAECellState Unit Unit (Fin 1 → Fin 1 → ℝ))
    (⟨(), (), fun _ _ => 1⟩ : MAECellState Unit Unit (Fin 1 → Fin 1 → ℝ))
    rfl⟩

/-- C2: per batch element the write step of `Interface.forward` realizes
`memory'[i,j] = memory[i,j] * (1 - w[i]*e[j]) + w[i]*a[j]`, and on the
spec's end-to-end scenario (4 addresses, 3 content bits, zero memory,
one-hot write attention at address 2, erase vector of ones, add vector of
halves) one step leaves row 2 equal to `[0.5, 0.5, 0.5]` and every other
row zero. -/
theorem memory_update_apply {A C : ℕ} (M : Fin A → Fin C → ℝ)
    (w : Fin A → ℝ) (e a : Fin C → ℝ) (i : Fin A) (j : Fin C) :
    memory_update M w e a i j = M i j * (1 - w i * e j) + w i * a j := by
  simp [memory_update, matmul, Fin.sum_univ_one]

theorem memory_update_formula :
    (∀ (A C : ℕ) (M : Fin A → Fin C → ℝ) (w : Fin A → ℝ)
        (e a : Fin C → ℝ) (i : Fin A) (j : Fin C),
      memory_update M w e a i j = M i j * (1 - w i * e j) + w i * a j) ∧
    (∀ (i : Fin 4) (j : Fin 3),
      memory_update (fun (_ : Fin 4) (_ : Fin 3) => (0 : ℝ))
          (one_hot 2) (fun _ => 1) (fun _ => 1 / 2) i j =
        if i = (2 : Fin 4) then 1 / 2 else 0) := by
  constructor
  · intro A C M w e a i j
    exact memory_update_apply M w e a i j
  · intro i j
    fin_cases i <;> simp [memory_update, matmul, one_hot, Fin.sum_univ_one]

/-- C5: `content_based_addressing` on a memory with a zero-norm row and a
zero-norm query stays finite and well-formed: every guarded normalization
denominator is strictly positive (never a division by zero), the zero row
normalizes to zero, the cosine similarity of that row is `0`, and the
returned attention is still a probability distribution. -/
theorem content_based_addressing_zero_norm_guard {A C : ℕ} [NeZero A]
    (M : Fin A → Fin C → ℝ) (q : Fin C → ℝ) (beta : ℝ) (r : Fin A)
    (hrow : ∀ j, M r j = 0) (hq : ∀ j, q j = 0) :
    (∀ (n : ℕ) (v : Fin n → ℝ), 0 < max (l2norm v) EPS) ∧
    (∀ j, normalize_l2 (M r) j = 0) ∧
    (∑ j, normalize_l2 (M r) j * normalize_l2 q j) = 0 ∧
    (∀ a, 0 ≤ content_based_addressing q beta M a) ∧
    (∑ a, content_based_addressing q beta M a = 1) := by
  refine ⟨?_, ?_, ?_, ?_, ?_⟩
  · intro n v
    exact lt_of_lt_of_le EPS_pos (le_max_right _ _)
  · intro j
    simp [normalize_l2, hrow]
  · exact Finset.sum_eq_zero fun j _ => by simp [normalize_l2, hrow]
  · intro a
    rw [content_based_addressing_eq]
    exact softmax_nonneg _ a
  · rw [content_based_addressing_eq]
    exact softmax_sum_one _

theorem content_based_addressing_zero_norm_guard_witness :
    ((∀ j : Fin 1, (fun (_ : Fin 2) (_ : Fin 1) => (0 : ℝ)) 0 j = 0) ∧
      (∀ j : Fin 1, (fun (_ : Fin 1) => (0 : ℝ)) j = 0)) ∧
    ((∀ (n : ℕ) (v : Fin n → ℝ), 0 < max (l2norm v) EPS) ∧
      (∀ j, normalize_l2 ((fun (_ : Fin 2) (_ : Fin 1) => (0 : ℝ)) 0) j = 0) ∧
      (∑ j, normalize_l2 ((fun (_ : Fin 2) (_ : Fin 1) => (0 : ℝ)) 0) j *
        normalize_l2 (fun (_ : Fin 1) => (0 : ℝ)) j) = 0 ∧
      (∀ a, 0 ≤ content_based_addressing (fun (_ : Fin 1) => (0 : ℝ)) 1
        (fun (_ : Fin 2) (_ : Fin 1) => (0 : ℝ)) a) ∧
      (∑ a, content_based_addressing (fun (_ : Fin 1) => (0 : ℝ)) 1
        (fun (_ : Fin 2) (_ : Fin 1) => (0 : ℝ)) a = 1)) :=
⟨⟨fun _ => rfl, fun _ => rfl⟩,
  @content_based_addressing_zero_norm_guard 2 1 _
    (fun _ _ => 0) (fun _ => 0) 1 0 (fun _ => rfl) (fun _ => rfl)⟩

/-! ### The circular convolution as a modular shift -/

theorem wrap_idx_eq_iff_emod {A : ℕ} [NeZero A] (x : ℤ) (t : Fin A) :
    @wrap_idx A _ x = t ↔ x % (A : ℤ) = (t : ℤ) := by
  have hA : 0 < (A : ℤ) := by
    exact_mod_cast Nat.pos_of_ne_zero (NeZero.ne A)
  have h1 := Int.emod_nonneg x (ne_of_gt hA)
  have h2 := Int.emod_lt_of_pos x hA
  rw [Fin.ext_iff]
  simp only [wrap_idx]
  omega

theorem circular_index_eq_emod {A : ℕ} {idx : ℤ} (hA : 0 < A)
    (h1 : -(A : ℤ) ≤ idx) (h2 : idx < 2 * A) :
    circular_index idx A = idx % (A : ℤ) := by
  have hA' : 0 < (A : ℤ) := by exact_mod_cast hA
  rw [circular_index]
  split_ifs with ha hb
  · have h3 : (idx + (A : ℤ)) % (A : ℤ) = idx % (A : ℤ) := by
      have h4 := @Int.add_mul_emod_self_left idx (A : ℤ) 1
      simp only [mul_one] at h4
      exact h4
    rw [← h3, Int.emod_eq_of_lt (by omega) (by omega)]
    omega
  · have h3 : (idx - (A : ℤ)) % (A : ℤ) = idx % (A : ℤ) := by
      have h4 := @Int.add_mul_emod_self_left idx (A : ℤ) (-1)
      simp only [mul_neg, mul_one, ← sub_eq_add_neg] at h4
      exact h4
    rw [← h3, Int.emod_eq_of_lt (by omega) (by omega)]
  · exact (Int.emod_eq_of_lt (by omega) (by omega)).symm

theorem ext_indices_getD {S A : ℕ} (hS : S % 2 = 1) {j : ℕ}
    (hj : j < A + S - 1) :
    (ext_indices S A).getD j 0 =
      circular_index ((j : ℤ) - ((S / 2 : ℕ) : ℤ)) A := by
  unfold ext_indices python_range
  rw [List.map_map, List.getD_eq_getElem?_getD, List.getElem?_map]
  have hlen : j < (((A : ℤ) + (S : ℤ) / 2) - (-(S : ℤ) / 2 + 1)).toNat := by
    omega
  rw [List.getElem?_range hlen]
  simp only [Option.map_some', Option.getD_some, Function.comp_apply]
  congr 1
  omega

theorem ext_attention_eq {A S : ℕ} [NeZero A] (hS : S % 2 = 1)
    (hc : S / 2 ≤ A) (att : Fin A → ℝ) {j : ℕ} (hj : j < A + S - 1) :
    ext_attention S att j =
      att (@wrap_idx A _ ((j : ℤ) - ((S / 2 : ℕ) : ℤ))) := by
  have hA : 0 < A := Nat.pos_of_ne_zero (NeZero.ne A)
  have hA' : 0 < (A : ℤ) := by exact_mod_cast hA
  have hidx : (ext_indices S A).getD j 0 =
      ((j : ℤ) - ((S / 2 : ℕ) : ℤ)) % (A : ℤ) := by
    rw [ext_indices_getD hS hj]
    exact circular_index_eq_emod hA (by omega) (by omega)
  have hnn := Int.emod_nonneg ((j : ℤ) - ((S / 2 : ℕ) : ℤ)) (ne_of_gt hA')
  have hub := Int.emod_lt_of_pos ((j : ℤ) - ((S / 2 : ℕ) : ℤ)) hA'
  have hcond : 0 ≤ (ext_indices S A).getD j 0 ∧
      ((ext_indices S A).getD j 0).toNat < A := by
    rw [hidx]
    exact ⟨hnn, by omega⟩
  rw [ext_attention, dif_pos hcond]
  apply congrArg
  rw [Fin.ext_iff]
  simp only [wrap_idx, hidx]

/-- C3: feeding `circular_convolution` a one-hot attention at address `a₀`
and a one-hot shift kernel at offset `k` (kernel index `S/2 - k`, per the
spec formula `shifted[a] = Σ_s gated[(a + s - S//2) mod A] * kernel[s]`)
produces the one-hot attention at address `(a₀ + k) mod A`. -/
theorem circular_convolution_one_hot {A S : ℕ} [NeZero A]
    (hS : S % 2 = 1) (hc : S / 2 ≤ A) (a0 : Fin A) (k : ℤ)
    (hk : k.natAbs ≤ S / 2) (s0 : Fin S)
    (hs0 : (s0 : ℤ) = ((S / 2 : ℕ) : ℤ) - k) :
    circular_convolution (one_hot a0) (one_hot s0) =
      one_hot (@wrap_idx A _ ((a0 : ℤ) + k)) := by
  have hA : 0 < A := Nat.pos_of_ne_zero (NeZero.ne A)
  have hA' : 0 < (A : ℤ) := by exact_mod_cast hA
  funext a
  rw [circular_convolution]
  have hpick : ∀ s : Fin S,
      ext_attention S (one_hot a0) ((a : ℕ) + (s : ℕ)) * one_hot s0 s =
      if s = s0
      then ext_attention S (one_hot a0) ((a : ℕ) + (s : ℕ)) else 0 := by
    intro s
    rw [one_hot]
    by_cases h : s = s0 <;> simp [h]
  rw [Finset.sum_congr rfl fun s _ => hpick s, Finset.sum_ite_eq' _ s0]
  rw [if_pos (Finset.mem_univ s0)]
  have hbound : (a : ℕ) + (s0 : ℕ) < A + S - 1 := by
    have := a.isLt
    have := s0.isLt
    omega
  rw [ext_attention_eq hS hc _ hbound]
  have harg : ((((a : ℕ) + (s0 : ℕ) : ℕ) : ℤ)) - ((S / 2 : ℕ) : ℤ) =
      (a : ℤ) - k := by
    push_cast
    omega
  rw [harg]
  rw [one_hot, one_hot]
  have hcond : (@wrap_idx A _ ((a : ℤ) - k) = a0) ↔
      (a = @wrap_idx A _ ((a0 : ℤ) + k)) := by
    rw [wrap_idx_eq_iff_emod]
    rw [show (a = @wrap_idx A _ ((a0 : ℤ) + k)) ↔
        (@wrap_idx A _ ((a0 : ℤ) + k) = a) from eq_comm]
    rw [wrap_idx_eq_iff_emod]
    constructor
    · intro h
      rw [← h, Int.add_emod, Int.emod_emod_of_dvd _ dvd_rfl, ← Int.add_emod]
      have : (a : ℤ) - k + k = (a : ℤ) := by ring
      rw [this]
      exact Int.emod_eq_of_lt (by omega) (by exact_mod_cast a.isLt)
    · intro h
      rw [← h, Int.sub_emod, Int.emod_emod_of_dvd _ dvd_rfl, ← Int.sub_emod]
      have : (a0 : ℤ) + k - k = (a0 : ℤ) := by ring
      rw [this]
      exact Int.emod_eq_of_lt (by omega) (by exact_mod_cast a0.isLt)
  rw [if_congr hcond rfl rfl]

theorem circular_convolution_one_hot_witness :
    ((3 % 2 = 1 ∧ 3 / 2 ≤ 4 ∧ (1 : ℤ).natAbs ≤ 3 / 2 ∧
        ((0 : Fin 3) : ℤ) = ((3 / 2 : ℕ) : ℤ) - 1) ∧
      circular_convolution (one_hot (1 : Fin 4)) (one_hot (0 : Fin 3)) =
        one_hot (@wrap_idx 4 _ (((1 : Fin 4) : ℤ) + 1))) :=
⟨⟨by decide, by decide, by decide, by decide⟩,
  @circular_convolution_one_hot 4 3 _ (by decide) (by decide) 1 1
    (by decide) 0 (by decide)⟩

/-! ### Mass preservation through the pipeline -/

theorem wrap_idx_coe {A : ℕ} [NeZero A] (x : ℤ) :
    ((@wrap_idx A _ x : Fin A) : ℤ) = x % (A : ℤ) := by
  have hA : 0 < (A : ℤ) := by
    exact_mod_cast Nat.pos_of_ne_zero (NeZero.ne A)
  simp only [wrap_idx]
  exact Int.toNat_of_nonneg (Int.emod_nonneg x (ne_of_gt hA))

theorem sum_ext_attention {A S : ℕ} [NeZero A] (hS : S % 2 = 1)
    (hc : S / 2 ≤ A) (att : Fin A → ℝ) (s : Fin S) :
    ∑ a : Fin A, ext_attention S att ((a : ℕ) + (s : ℕ)) = ∑ a, att a := by
  have hA : 0 < A := Nat.pos_of_ne_zero (NeZero.ne A)
  have hA' : 0 < (A : ℤ) := by exact_mod_cast hA
  have hkey : ∀ a : Fin A, ext_attention S att ((a : ℕ) + (s : ℕ)) =
      att (@wrap_idx A _
        ((a : ℤ) + (((s : ℕ) : ℤ) - ((S / 2 : ℕ) : ℤ)))) := by
    intro a
    rw [ext_attention_eq hS hc att
      (by have := a.isLt; have := s.isLt; omega)]
    congr 2
    push_cast
    ring
  rw [Finset.sum_congr rfl fun a _ => hkey a]
  have hinj : Function.Injective
      (fun a : Fin A => @wrap_idx A _
        ((a : ℤ) + (((s : ℕ) : ℤ) - ((S / 2 : ℕ) : ℤ)))) := by
    intro a1 a2 h
    have h1 := congrArg (fun t : Fin A => (t : ℤ)) h
    simp only [wrap_idx_coe] at h1
    have hm : Int.ModEq (A : ℤ)
        ((a1 : ℤ) + (((s : ℕ) : ℤ) - ((S / 2 : ℕ) : ℤ)))
        ((a2 : ℤ) + (((s : ℕ) : ℤ) - ((S / 2 : ℕ) : ℤ))) := h1
    have h2 : Int.ModEq (A : ℤ) (a1 : ℤ) (a2 : ℤ) :=
      Int.ModEq.add_right_cancel (Int.ModEq.refl _) hm
    have h3 : ((a1 : ℕ) : ℤ) % (A : ℤ) = ((a2 : ℕ) : ℤ) % (A : ℤ) := h2
    have e1 : ((a1 : ℕ) : ℤ) % (A : ℤ) = ((a1 : ℕ) : ℤ) :=
      Int.emod_eq_of_lt (by omega) (by exact_mod_cast a1.isLt)
    have e2 : ((a2 : ℕ) : ℤ) % (A : ℤ) = ((a2 : ℕ) : ℤ) :=
      Int.emod_eq_of_lt (by omega) (by exact_mod_cast a2.isLt)
    apply Fin.ext
    omega
  exact Fintype.sum_bijective _ (Finite.injective_iff_bijective.mp hinj)
    _ _ (fun a => rfl)

theorem ext_attention_nonneg {A S : ℕ} (att : Fin A → ℝ)
    (h : ∀ a, 0 ≤ att a) (j : ℕ) : 0 ≤ ext_attention S att j := by
  rw [ext_attention]
  split_ifs with hh
  · exact h _
  · exact le_rfl

theorem circular_convolution_sum {A S : ℕ} [NeZero A] (hS : S % 2 = 1)
    (hc : S / 2 ≤ A) (att : Fin A → ℝ) (kernel : Fin S → ℝ) :
    ∑ a, circular_convolution att kernel a =
      (∑ a, att a) * (∑ s, kernel s) := by
  unfold circular_convolution
  rw [Finset.sum_comm, Finset.mul_sum]
  apply Finset.sum_congr rfl
  intro s _
  rw [← Finset.sum_mul, sum_ext_attention hS hc]

theorem circular_convolution_nonneg {A S : ℕ} (att : Fin A → ℝ)
    (kernel : Fin S → ℝ) (hatt : ∀ a, 0 ≤ att a)
    (hk : ∀ s, 0 ≤ kernel s) (a : Fin A) :
    0 ≤ circular_convolution att kernel a := by
  rw [circular_convolution]
  exact Finset.sum_nonneg fun s _ =>
    mul_nonneg (ext_attention_nonneg att hatt _) (hk s)

theorem update_attention_eq_sharpening {A C S : ℕ} (raw_query : Fin C → ℝ)
    (raw_beta raw_gate : ℝ) (raw_shift : Fin S → ℝ) (raw_gamma : ℝ)
    (prev_memory : Fin A → Fin C → ℝ) (prev_attention : Fin A → ℝ) :
    update_attention raw_query raw_beta raw_gate raw_shift raw_gamma
        prev_memory prev_attention =
      sharpening
        (shifted_attention raw_query raw_beta raw_gate raw_shift
          prev_memory prev_attention)
        (softplus raw_gamma + 1) := rfl

theorem sharpening_nonneg {A : ℕ} (att : Fin A → ℝ) (gamma : ℝ)
    (h : ∀ a, 0 ≤ att a) (a : Fin A) : 0 ≤ sharpening att gamma a :=
div_nonneg (Real.rpow_nonneg (h a) gamma)
  (le_trans EPS_pos.le (le_max_right _ _))

theorem sharpening_sum {A : ℕ} (att : Fin A → ℝ) (gamma : ℝ)
    (h : ∀ a, 0 ≤ att a) :
    ∑ a, sharpening att gamma a =
      l1norm (fun a => att a ^ gamma) /
        max (l1norm (fun a => att a ^ gamma)) EPS := by
  have habs : l1norm (fun a => att a ^ gamma) = ∑ a, att a ^ gamma := by
    rw [l1norm]
    exact Finset.sum_congr rfl fun a _ =>
      abs_of_nonneg (Real.rpow_nonneg (h a) gamma)
  unfold sharpening normalize_l1
  rw [← Finset.sum_div, ← habs]

theorem sharpening_sum_le_one {A : ℕ} (att : Fin A → ℝ) (gamma : ℝ)
    (h : ∀ a, 0 ≤ att a) : ∑ a, sharpening att gamma a ≤ 1 := by
  rw [sharpening_sum att gamma h]
  exact (div_le_one (lt_of_lt_of_le EPS_pos (le_max_right _ _))).mpr
    (le_max_left _ _)

theorem sharpening_sum_eq_one {A : ℕ} (att : Fin A → ℝ) (gamma : ℝ)
    (h : ∀ a, 0 ≤ att a)
    (hl1 : EPS ≤ l1norm (fun a => att a ^ gamma)) :
    ∑ a, sharpening att gamma a = 1 := by
  rw [sharpening_sum att gamma h, max_eq_left hl1]
  exact div_self (ne_of_gt (lt_of_lt_of_le EPS_pos hl1))

theorem gating_sum {A : ℕ} (g : ℝ) (c p : Fin A → ℝ) :
    ∑ a, gating g c p a = g * (∑ a, c a) + (1 - g) * (∑ a, p a) := by
  unfold gating
  rw [Finset.sum_add_distrib, ← Finset.mul_sum, ← Finset.mul_sum]

theorem gating_nonneg {A : ℕ} (g : ℝ) (c p : Fin A → ℝ)
    (hg0 : 0 ≤ g) (hg1 : g ≤ 1) (hcn : ∀ a, 0 ≤ c a)
    (hpn : ∀ a, 0 ≤ p a) (a : Fin A) : 0 ≤ gating g c p a :=
add_nonneg (mul_nonneg hg0 (hcn a))
  (mul_nonneg (by linarith) (hpn a))

theorem shifted_attention_nonneg {A C S : ℕ} (raw_query : Fin C → ℝ)
    (raw_beta raw_gate : ℝ) (raw_shift : Fin S → ℝ)
    (prev_memory : Fin A → Fin C → ℝ) (prev_attention : Fin A → ℝ)
    (hp : ∀ a, 0 ≤ prev_attention a) (a : Fin A) :
    0 ≤ shifted_attention raw_query raw_beta raw_gate raw_shift
        prev_memory prev_attention a := by
  rw [shifted_attention]
  apply circular_convolution_nonneg
  · intro b
    apply gating_nonneg
    · exact (sigmoid_pos _).le
    · exact (sigmoid_lt_one _).le
    · intro b2
      rw [content_based_addressing_eq]
      exact softmax_nonneg _ b2
    · exact hp
  · intro s
    exact softmax_nonneg _ s

theorem shifted_attention_sum {A C S : ℕ} [NeZero A] (hS : S % 2 = 1)
    (hc : S / 2 ≤ A) (raw_query : Fin C → ℝ) (raw_beta raw_gate : ℝ)
    (raw_shift : Fin S → ℝ) (prev_memory : Fin A → Fin C → ℝ)
    (prev_attention : Fin A → ℝ) (hp1 : ∑ a, prev_attention a = 1) :
    ∑ a, shifted_attention raw_query raw_beta raw_gate raw_shift
        prev_memory prev_attention a = 1 := by
  haveI : NeZero S := ⟨by omega⟩
  rw [shifted_attention, circular_convolution_sum hS hc, gating_sum,
    content_based_addressing_eq, softmax_sum_one, softmax_sum_one, hp1]
  ring

/-- C1 (amended): for every valid raw input with the previous attention a
probability distribution, the content-based-addressing output is always a
probability distribution; the full `update_attention` pipeline output is
always non-negative with sum at most `1`, the pre-sharpening shifted
attention sums exactly to `1`, and the final output sums exactly to `1`
whenever the L1 mass of the `γ`-powered shifted attention is at least the
`F.normalize` guard `EPS = 1e-12` (for extreme sharpening factors that
drive that mass below `EPS`, the final normalization divides by `EPS` and
the output sums to strictly less than `1`). -/
theorem update_attention_simplex {A C S : ℕ} [NeZero A]
    (hS : S % 2 = 1) (hc : S / 2 ≤ A)
    (raw_query : Fin C → ℝ) (raw_beta raw_gate : ℝ)
    (raw_shift : Fin S → ℝ) (raw_gamma : ℝ)
    (prev_memory : Fin A → Fin C → ℝ) (prev_attention : Fin A → ℝ)
    (hp0 : ∀ a, 0 ≤ prev_attention a)
    (hp1 : ∑ a, prev_attention a = 1) :
    (∀ a, 0 ≤ content_based_addressing (fun j => sigmoid (raw_query j))
        (softplus raw_beta + 1) prev_memory a) ∧
    (∑ a, content_based_addressing (fun j => sigmoid (raw_query j))
        (softplus raw_beta + 1) prev_memory a = 1) ∧
    (∑ a, shifted_attention raw_query raw_beta raw_gate raw_shift
        prev_memory prev_attention a = 1) ∧
    (∀ a, 0 ≤ update_attention raw_query raw_beta raw_gate raw_shift
        raw_gamma prev_memory prev_attention a) ∧
    (∑ a, update_attention raw_query raw_beta raw_gate raw_shift raw_gamma
        prev_memory prev_attention a ≤ 1) ∧
    (EPS ≤ l1norm (fun a =>
        shifted_attention raw_query raw_beta raw_gate raw_shift
          prev_memory prev_attention a ^ (softplus raw_gamma + 1)) →
      ∑ a, update_attention raw_query raw_beta raw_gate raw_shift
        raw_gamma prev_memory prev_attention a = 1) := by
  have hshift_nn := shifted_attention_nonneg raw_query raw_beta raw_gate
    raw_shift prev_memory prev_attention hp0
  refine ⟨?_, ?_, ?_, ?_, ?_, ?_⟩
  · intro a
    rw [content_based_addressing_eq]
    exact softmax_nonneg _ a
  · rw [content_based_addressing_eq]
    exact softmax_sum_one _
  · exact shifted_attention_sum hS hc raw_query raw_beta raw_gate
      raw_shift prev_memory prev_attention hp1
  · intro a
    rw [update_attention_eq_sharpening]
    exact sharpening_nonneg _ _ hshift_nn a
  · rw [update_attention_eq_sharpening]
    exact sharpening_sum_le_one _ _ hshift_nn
  · intro hl1
    rw [update_attention_eq_sharpening]
    exact sharpening_sum_eq_one _ _ hshift_nn hl1

/-! ### Concrete evaluation of the pipeline on an all-zero raw input
(2 addresses, 1 content bit, shift kernel of width 1, zero memory,
uniform previous attention) -/

theorem sigmoid_zero : sigmoid 0 = 1 / 2 := by
  unfold sigmoid
  norm_num [Real.exp_zero]

theorem softplus_zero_le_one : softplus 0 ≤ 1 := by
  unfold softplus
  rw [Real.exp_zero]
  have h := Real.log_le_sub_one_of_pos (by norm_num : (0 : ℝ) < 1 + 1)
  linarith

theorem softmax_const {n : ℕ} [NeZero n] (c : ℝ) :
    softmax (fun _ : Fin n => c) = fun _ => 1 / (n : ℝ) := by
  funext i
  unfold softmax
  rw [Finset.sum_const, Finset.card_univ, Fintype.card_fin, nsmul_eq_mul]
  have h1 : (n : ℝ) ≠ 0 := Nat.cast_ne_zero.mpr (NeZero.ne n)
  have h2 : Real.exp c ≠ 0 := (Real.exp_pos c).ne'
  field_simp
  ring

theorem content_based_addressing_zero_memory {A C : ℕ} (q : Fin C → ℝ)
    (beta : ℝ) :
    content_based_addressing q beta
        (fun (_ : Fin A) (_ : Fin C) => (0 : ℝ)) =
      softmax (fun _ : Fin A => (0 : ℝ)) := by
  rw [content_based_addressing_eq]
  apply congrArg
  funext a
  have hz : ∀ j : Fin C,
      normalize_l2 ((fun (_ : Fin A) (_ : Fin C) => (0 : ℝ)) a) j = 0 := by
    intro j
    simp [normalize_l2]
  rw [Finset.sum_congr rfl fun j _ => by rw [hz j, zero_mul]]
  simp

theorem shifted_attention_zero_eval :
    shifted_attention (fun (_ : Fin 1) => (0 : ℝ)) 0 0
      (fun (_ : Fin 1) => (0 : ℝ)) (fun (_ : Fin 2) (_ : Fin 1) => (0 : ℝ))
      (fun _ => 1 / 2) = fun _ => (1 / 2 : ℝ) := by
  have hgate : gating (sigmoid 0)
      (content_based_addressing
        (fun j : Fin 1 => sigmoid ((fun (_ : Fin 1) => (0 : ℝ)) j))
        (softplus 0 + 1) (fun (_ : Fin 2) (_ : Fin 1) => (0 : ℝ)))
      (fun _ : Fin 2 => 1 / 2) = fun _ : Fin 2 => (1 / 2 : ℝ) := by
    rw [content_based_addressing_zero_memory, softmax_const]
    funext b
    rw [gating, sigmoid_zero]
    norm_num
  rw [shifted_attention, hgate]
  funext a
  rw [circular_convolution, Fin.sum_univ_one]
  have hb : (a : ℕ) + ((0 : Fin 1) : ℕ) < 2 + 1 - 1 := by
    have := a.isLt
    omega
  rw [ext_attention_eq (by norm_num) (by norm_num) _ hb, softmax_const]
  norm_num

theorem l1norm_const_two (x : ℝ) (hx : 0 ≤ x) :
    l1norm (fun _ : Fin 2 => x) = 2 * x := by
  rw [l1norm, Fin.sum_univ_two, abs_of_nonneg hx]
  ring

theorem update_attention_zero_eval (g : ℝ) :
    update_attention (fun (_ : Fin 1) => (0 : ℝ)) 0 0
      (fun (_ : Fin 1) => (0 : ℝ)) g (fun (_ : Fin 2) (_ : Fin 1) => (0 : ℝ))
      (fun _ => 1 / 2) =
    fun _ => ((1 / 2 : ℝ) ^ (softplus g + 1)) /
      max (2 * (1 / 2 : ℝ) ^ (softplus g + 1)) EPS := by
  rw [update_attention_eq_sharpening, shifted_attention_zero_eval]
  funext a
  rw [show sharpening (fun _ : Fin 2 => (1 / 2 : ℝ)) (softplus g + 1) a =
      ((1 / 2 : ℝ) ^ (softplus g + 1)) /
        max (l1norm (fun _ : Fin 2 => (1 / 2 : ℝ) ^ (softplus g + 1))) EPS
    from rfl]
  rw [l1norm_const_two _ (Real.rpow_nonneg (by norm_num) _)]

theorem half_rpow_ge {y : ℝ} (hy : y ≤ 2) :
    (1 / 4 : ℝ) ≤ (1 / 2 : ℝ) ^ y := by
  have h := Real.rpow_le_rpow_of_exponent_ge
    (by norm_num : (0 : ℝ) < 1 / 2) (by norm_num : (1 / 2 : ℝ) ≤ 1) hy
  have h2 : ((1 / 2 : ℝ)) ^ (2 : ℝ) = 1 / 4 := by
    rw [show (2 : ℝ) = ((2 : ℕ) : ℝ) by norm_num, Real.rpow_natCast]
    norm_num
  linarith

theorem eps_le_two_mul_half_rpow : EPS ≤ 2 * (1 / 2 : ℝ) ^ (softplus 0 + 1) := by
  have h1 : softplus 0 + 1 ≤ 2 := by linarith [softplus_zero_le_one]
  have h2 := half_rpow_ge h1
  have h3 : EPS ≤ 2 * (1 / 4 : ℝ) := by norm_num [EPS]
  linarith

theorem update_attention_zero_all :
    update_attention (fun (_ : Fin 1) => (0 : ℝ)) 0 0
      (fun (_ : Fin 1) => (0 : ℝ)) 0 (fun (_ : Fin 2) (_ : Fin 1) => (0 : ℝ))
      (fun _ => 1 / 2) = fun _ => (1 / 2 : ℝ) := by
  rw [update_attention_zero_eval 0]
  funext a
  rw [max_eq_left eps_le_two_mul_half_rpow]
  have hx : ((1 / 2 : ℝ) ^ (softplus 0 + 1)) ≠ 0 :=
    (Real.rpow_pos_of_pos (by norm_num) _).ne'
  field_simp
  ring

theorem update_attention_simplex_witness :
    ((1 % 2 = 1) ∧ (1 / 2 ≤ 2) ∧
      (∀ a : Fin 2, 0 ≤ ((fun _ => (1 / 2 : ℝ)) a)) ∧
      ((∑ a : Fin 2, (fun _ => (1 / 2 : ℝ)) a) = 1) ∧
      EPS ≤ l1norm (fun a : Fin 2 =>
        shifted_attention (fun (_ : Fin 1) => (0 : ℝ)) 0 0
          (fun (_ : Fin 1) => (0 : ℝ))
          (fun (_ : Fin 2) (_ : Fin 1) => (0 : ℝ))
          (fun _ => 1 / 2) a ^ (softplus 0 + 1))) ∧
    (∑ a : Fin 2, update_attention (fun (_ : Fin 1) => (0 : ℝ)) 0 0
        (fun (_ : Fin 1) => (0 : ℝ)) 0
        (fun (_ : Fin 2) (_ : Fin 1) => (0 : ℝ))
        (fun _ => 1 / 2) a = 1) := by
  have hrw : (fun a : Fin 2 =>
      shifted_attention (fun (_ : Fin 1) => (0 : ℝ)) 0 0
        (fun (_ : Fin 1) => (0 : ℝ)) (fun (_ : Fin 2) (_ : Fin 1) => (0 : ℝ))
        (fun _ => 1 / 2) a ^ (softplus 0 + 1)) =
      fun _ : Fin 2 => (1 / 2 : ℝ) ^ (softplus 0 + 1) := by
    funext a
    rw [shifted_attention_zero_eval]
  have hl1 : EPS ≤ l1norm (fun a : Fin 2 =>
      shifted_attention (fun (_ : Fin 1) => (0 : ℝ)) 0 0
        (fun (_ : Fin 1) => (0 : ℝ)) (fun (_ : Fin 2) (_ : Fin 1) => (0 : ℝ))
        (fun _ => 1 / 2) a ^ (softplus 0 + 1)) := by
    rw [hrw, l1norm_const_two _ (Real.rpow_nonneg (by norm_num) _)]
    exact eps_le_two_mul_half_rpow
  refine ⟨⟨rfl, by norm_num, fun a => by norm_num,
    by rw [Fin.sum_univ_two]; norm_num, hl1⟩, ?_⟩
  exact (update_attention_simplex (by norm_num) (by norm_num)
    (fun (_ : Fin 1) => (0 : ℝ)) 0 0 (fun (_ : Fin 1) => (0 : ℝ)) 0
    (fun (_ : Fin 2) (_ : Fin 1) => (0 : ℝ)) (fun _ => 1 / 2)
    (fun a => by norm_num)
    (by rw [Fin.sum_univ_two]; norm_num)).2.2.2.2.2 hl1

theorem update_attention_simplex_counterexample :
    (∀ a : Fin 2, 0 ≤ ((fun _ => (1 / 2 : ℝ)) a)) ∧
    ((∑ a : Fin 2, (fun _ => (1 / 2 : ℝ)) a) = 1) ∧
    (∑ a : Fin 2, update_attention (fun (_ : Fin 1) => (0 : ℝ)) 0 0
        (fun (_ : Fin 1) => (0 : ℝ)) 100
        (fun (_ : Fin 2) (_ : Fin 1) => (0 : ℝ))
        (fun _ => 1 / 2) a < 1) := by
  refine ⟨fun a => by norm_num, by rw [Fin.sum_univ_two]; norm_num, ?_⟩
  rw [update_attention_zero_eval 100, Fin.sum_univ_two]
  have hsp : (100 : ℝ) ≤ softplus 100 := by
    unfold softplus
    have h1 : Real.exp 100 ≤ 1 + Real.exp 100 := by linarith
    have h2 := Real.log_le_log (Real.exp_pos 100) h1
    rwa [Real.log_exp] at h2
  have hxpos : 0 < (1 / 2 : ℝ) ^ (softplus 100 + 1) :=
    Real.rpow_pos_of_pos (by norm_num) _
  have hxle : (1 / 2 : ℝ) ^ (softplus 100 + 1) ≤ (1 / 2 : ℝ) ^ (101 : ℝ) :=
    Real.rpow_le_rpow_of_exponent_ge (by norm_num) (by norm_num)
      (by linarith)
  have h101 : ((1 / 2 : ℝ) ^ (101 : ℝ)) = (1 / 2 : ℝ) ^ (101 : ℕ) := by
    rw [show (101 : ℝ) = ((101 : ℕ) : ℝ) by norm_num, Real.rpow_natCast]
  have hsmall : 2 * (1 / 2 : ℝ) ^ (softplus 100 + 1) < EPS := by
    rw [EPS]
    have hb : (1 / 2 : ℝ) ^ (softplus 100 + 1) ≤ (1 / 2 : ℝ) ^ (101 : ℕ) := by
      rw [← h101]
      exact hxle
    have hc : (2 : ℝ) * (1 / 2 : ℝ) ^ (101 : ℕ) < 1e-12 := by norm_num
    linarith
  rw [max_eq_right hsmall.le, div_add_div_same]
  have h2x : (1 / 2 : ℝ) ^ (softplus 100 + 1) +
      (1 / 2 : ℝ) ^ (softplus 100 + 1) =
      2 * (1 / 2 : ℝ) ^ (softplus 100 + 1) := by ring
  rw [h2x]
  exact (div_lt_one EPS_pos).mpr hsmall

/-! ### The read path of `Interface.forward` -/

theorem zero_linear_apply_five :
    (⟨fun _ _ => 0, fun _ => 0⟩ :
        LinearLayer 1 (1 + 1 + 1 + 1 + 1)).apply (fun _ => 0) =
      fun _ : Fin (1 + 1 + 1 + 1 + 1) => (0 : ℝ) := by
  funext p
  simp [LinearLayer.apply, Fin.sum_univ_one]

theorem zero_linear_apply_seven :
    (⟨fun _ _ => 0, fun _ => 0⟩ :
        LinearLayer 1 (1 + 1 + 1 + 1 + 1 + 1 + 1)).apply (fun _ => 0) =
      fun _ : Fin (1 + 1 + 1 + 1 + 1 + 1 + 1) => (0 : ℝ) := by
  funext p
  simp [LinearLayer.apply, Fin.sum_univ_one]

theorem update_attention_read_zero_all :
    update_attention
      (read_query (fun _ : Fin (1 + 1 + 1 + 1 + 1) => (0 : ℝ)))
      (read_beta (fun _ : Fin (1 + 1 + 1 + 1 + 1) => (0 : ℝ)))
      (read_gate (fun _ : Fin (1 + 1 + 1 + 1 + 1) => (0 : ℝ)))
      (read_shift (fun _ : Fin (1 + 1 + 1 + 1 + 1) => (0 : ℝ)))
      (read_gamma (fun _ : Fin (1 + 1 + 1 + 1 + 1) => (0 : ℝ)))
      (fun (_ : Fin 2) (_ : Fin 1) => (0 : ℝ)) (fun _ => 1 / 2) =
      fun _ => (1 / 2 : ℝ) :=
update_attention_zero_all

theorem update_attention_write_zero_all :
    update_attention
      (write_query (fun _ : Fin (1 + 1 + 1 + 1 + 1 + 1 + 1) => (0 : ℝ)))
      (write_beta (fun _ : Fin (1 + 1 + 1 + 1 + 1 + 1 + 1) => (0 : ℝ)))
      (write_gate (fun _ : Fin (1 + 1 + 1 + 1 + 1 + 1 + 1) => (0 : ℝ)))
      (write_shift (fun _ : Fin (1 + 1 + 1 + 1 + 1 + 1 + 1) => (0 : ℝ)))
      (write_gamma (fun _ : Fin (1 + 1 + 1 + 1 + 1 + 1 + 1) => (0 : ℝ)))
      (fun (_ : Fin 2) (_ : Fin 1) => (0 : ℝ)) (fun _ => 1 / 2) =
      fun _ => (1 / 2 : ℝ) :=
update_attention_zero_all

set_option maxHeartbeats 1000000 in
/-- C4: in `Interface.forward` every read head computes its read vector
from the pre-write memory: the returned read vectors equal
`attentionᵀ · prev_memory` for every input; and in a concrete step whose
write changes the memory, the returned read vector differs from what
reading the post-write memory with the same attention would give: reads
never see the same-timestep write. -/
theorem interface_forward_reads_prev_memory :
    (∀ (R A C S H : ℕ)
        (hidden2read_list : Fin R → LinearLayer H (C + 1 + 1 + S + 1))
        (hidden2write_params : LinearLayer H (C + 1 + 1 + S + 1 + C + C))
        (ctrl_hidden_state : Fin H → ℝ)
        (prev_memory : Fin A → Fin C → ℝ)
        (prev_state : InterfaceState R A) (i : Fin R),
      (interface_forward hidden2read_list hidden2write_params
          ctrl_hidden_state prev_memory prev_state).1 i =
        fun j => ∑ a,
          (interface_forward hidden2read_list hidden2write_params
            ctrl_hidden_state prev_memory prev_state).2.2.read_weights i a *
          prev_memory a j) ∧
    ((@interface_forward 1 2 1 1 1
        (fun _ : Fin 1 =>
          (⟨fun _ _ => 0, fun _ => 0⟩ : LinearLayer 1 (1 + 1 + 1 + 1 + 1)))
        (⟨fun _ _ => 0, fun _ => 0⟩ :
          LinearLayer 1 (1 + 1 + 1 + 1 + 1 + 1 + 1))
        (fun _ => 0) (fun (_ : Fin 2) (_ : Fin 1) => (0 : ℝ))
        ⟨fun _ _ => 1 / 2, fun _ => 1 / 2⟩).1 0 ≠
      fun j => ∑ a,
        (@interface_forward 1 2 1 1 1
          (fun _ : Fin 1 =>
            (⟨fun _ _ => 0, fun _ => 0⟩ : LinearLayer 1 (1 + 1 + 1 + 1 + 1)))
          (⟨fun _ _ => 0, fun _ => 0⟩ :
            LinearLayer 1 (1 + 1 + 1 + 1 + 1 + 1 + 1))
          (fun _ => 0) (fun (_ : Fin 2) (_ : Fin 1) => (0 : ℝ))
          ⟨fun _ _ => 1 / 2, fun _ => 1 / 2⟩).2.2.read_weights 0 a *
        (@interface_forward 1 2 1 1 1
          (fun _ : Fin 1 =>
            (⟨fun _ _ => 0, fun _ => 0⟩ : LinearLayer 1 (1 + 1 + 1 + 1 + 1)))
          (⟨fun _ _ => 0, fun _ => 0⟩ :
            LinearLayer 1 (1 + 1 + 1 + 1 + 1 + 1 + 1))
          (fun _ => 0) (fun (_ : Fin 2) (_ : Fin 1) => (0 : ℝ))
          ⟨fun _ _ => 1 / 2, fun _ => 1 / 2⟩).2.1 a j) := by
  constructor
  · intro R A C S H hidden2read_list hidden2write_params ctrl_hidden_state
      prev_memory prev_state i
    rfl
  · have hreads : (@interface_forward 1 2 1 1 1
        (fun _ : Fin 1 =>
          (⟨fun _ _ => 0, fun _ => 0⟩ : LinearLayer 1 (1 + 1 + 1 + 1 + 1)))
        (⟨fun _ _ => 0, fun _ => 0⟩ :
          LinearLayer 1 (1 + 1 + 1 + 1 + 1 + 1 + 1))
        (fun _ => 0) (fun (_ : Fin 2) (_ : Fin 1) => (0 : ℝ))
        ⟨fun _ _ => 1 / 2, fun _ => 1 / 2⟩).1 0 =
        fun _ : Fin 1 => (0 : ℝ) := by
      funext j
      dsimp only [interface_forward]
      simp
    have hatt : (@interface_forward 1 2 1 1 1
        (fun _ : Fin 1 =>
          (⟨fun _ _ => 0, fun _ => 0⟩ : LinearLayer 1 (1 + 1 + 1 + 1 + 1)))
        (⟨fun _ _ => 0, fun _ => 0⟩ :
          LinearLayer 1 (1 + 1 + 1 + 1 + 1 + 1 + 1))
        (fun _ => 0) (fun (_ : Fin 2) (_ : Fin 1) => (0 : ℝ))
        ⟨fun _ _ => 1 / 2, fun _ => 1 / 2⟩).2.2.read_weights 0 =
        fun _ : Fin 2 => (1 / 2 : ℝ) := by
      dsimp only [interface_forward]
      rw [zero_linear_apply_five]
      exact update_attention_read_zero_all
    have hmem : (@interface_forward 1 2 1 1 1
        (fun _ : Fin 1 =>
          (⟨fun _ _ => 0, fun _ => 0⟩ : LinearLayer 1 (1 + 1 + 1 + 1 + 1)))
        (⟨fun _ _ => 0, fun _ => 0⟩ :
          LinearLayer 1 (1 + 1 + 1 + 1 + 1 + 1 + 1))
        (fun _ => 0) (fun (_ : Fin 2) (_ : Fin 1) => (0 : ℝ))
        ⟨fun _ _ => 1 / 2, fun _ => 1 / 2⟩).2.1 =
        fun (_ : Fin 2) (_ : Fin 1) => (1 / 4 : ℝ) := by
      funext aa j
      dsimp only [interface_forward]
      rw [zero_linear_apply_seven, update_attention_write_zero_all,
        memory_update_apply]
      simp [write_erase, write_add, sigmoid_zero]
      norm_num
    intro hcontra
    have h0 := congrFun hcontra 0
    rw [hreads, hatt, hmem] at h0
    rw [Fin.sum_univ_two] at h0
    norm_num at h0

end NTMSpec
